import Mathlib

/-!
Shallow embedding of the core of the kmerutils repository (amino-acid k-mer
compression, streaming k-mer iteration, sketching driver, parameter
persistence and the classic minhash sketch), translated from the Rust
sources, together with theorems settling the frozen claims about it.

Machine integers are modelled as Nat with explicit reduction modulo the
word size where overflow matters.  Rust panics are modelled as Option or
Except values (none / error standing for the panic).
-/

/-! ## Alphabet (src/rnautils/kmeraa.rs, impl Alphabet)

The amino-acid alphabet is the 20-letter string ACDEFGHIKLMNPQRSTVWY.
Bytes are modelled as Nat values (their ASCII codes).
-/

/-- The field bases of struct Alphabet: the bytes of ACDEFGHIKLMNPQRSTVWY. -/
def Alphabet.bases : List Nat :=
  [65, 67, 68, 69, 70, 71, 72, 73, 75, 76, 77, 78, 80, 81, 82, 83, 84, 86, 87, 89]

/-- Alphabet::len : number of symbols (20). -/
def Alphabet.len : Nat := Alphabet.bases.length

/-- Alphabet::is_valid_base : membership of byte c in the bases string. -/
def Alphabet.is_valid_base (c : Nat) : Bool := Alphabet.bases.contains c

/-- Alphabet::get_nb_bits : 5 bits per symbol. -/
def Alphabet.get_nb_bits : Nat := 5

/-- Alphabet::encode : byte to 5-bit code.  The Rust function panics on a
byte outside the alphabet; the panic is modelled as none. -/
def Alphabet.encode (c : Nat) : Option Nat :=
  match c with
  | 65 => some 0b00001    -- A
  | 67 => some 0b00010    -- C
  | 68 => some 0b00011    -- D
  | 69 => some 0b00100    -- E
  | 70 => some 0b00101    -- F
  | 71 => some 0b00110    -- G
  | 72 => some 0b00111    -- H
  | 73 => some 0b01000    -- I
  | 75 => some 0b01001    -- K
  | 76 => some 0b01010    -- L
  | 77 => some 0b01011    -- M
  | 78 => some 0b01100    -- N
  | 80 => some 0b01101    -- P
  | 81 => some 0b01111    -- Q  (the table skips 0b01110)
  | 82 => some 0b10000    -- R
  | 83 => some 0b10001    -- S
  | 84 => some 0b10010    -- T
  | 86 => some 0b10011    -- V
  | 87 => some 0b10100    -- W
  | 89 => some 0b10101    -- Y
  | _  => none            -- panic: pattern not a code in alphabet

/-- Alphabet::decode : 5-bit code back to byte; panic modelled as none. -/
def Alphabet.decode (c : Nat) : Option Nat :=
  match c with
  | 0b00001 => some 65
  | 0b00010 => some 67
  | 0b00011 => some 68
  | 0b00100 => some 69
  | 0b00101 => some 70
  | 0b00110 => some 71
  | 0b00111 => some 72
  | 0b01000 => some 73
  | 0b01001 => some 75
  | 0b01010 => some 76
  | 0b01011 => some 77
  | 0b01100 => some 78
  | 0b01101 => some 80
  | 0b01111 => some 81
  | 0b10000 => some 82
  | 0b10001 => some 83
  | 0b10010 => some 84
  | 0b10011 => some 86
  | 0b10100 => some 87
  | 0b10101 => some 89
  | _  => none

/-! ## KmerAA (src/rnautils/kmeraa.rs, struct KmerAA)

A k-mer packed in a u128 at 5 bits per base.  The u128 field aa is a Nat;
shifts are reduced modulo 2 to the 128 exactly where the Rust shift would
discard high bits.
-/

/-- struct KmerAA: field aa is the packed u128 value, nb_base the width. -/
structure KmerAA where
  aa : Nat
  nb_base : Nat
deriving DecidableEq, Repr

/-- KmerAA::new.  The Rust code panics when nb_base is at least 25
(condition written nb_base greater or equal 25); the panic is none. -/
def KmerAA.new (nb_base : Nat) : Option KmerAA :=
  if nb_base ≥ 25 then none else some { aa := 0, nb_base := nb_base }

/-- KmerT::get_nb_base for KmerAA. -/
def KmerAA.get_nb_base (k : KmerAA) : Nat := k.nb_base

/-- KmerT::push for KmerAA, translated literally from the source:
the mask is built from 2 * nb_base bits (the source text), the value is
shifted left by 5 (a u128 shift, so reduced mod 2 to the 128), masked,
then ORed with the low 5 bits of the pushed code c (a u8). -/
def KmerAA.push (k : KmerAA) (c : Nat) : KmerAA :=
  let value_mask : Nat := (1 <<< (2 * k.get_nb_base)) - 1
  let new_kmer : Nat := (((k.aa <<< 5) % (2 ^ 128)) &&& value_mask) ||| (c &&& 0b11111)
  { aa := new_kmer, nb_base := k.nb_base }

/-- CompressedKmerT::get_nb_base_max for KmerAA : 25. -/
def KmerAA.get_nb_base_max : Nat := 25

/-- CompressedKmerT::get_compressed_value for KmerAA. -/
def KmerAA.get_compressed_value (k : KmerAA) : Nat := k.aa

/-- Modelled from the spec (invariant I2 as quoted by the claim): the value
a push is claimed to produce, namely the old value shifted left by 5 bits,
masked to the low 5 * k bits, ORed with the low 5 bits of the new code. -/
def pushSpecValue (k : Nat) (oldValue : Nat) (c : Nat) : Nat :=
  ((oldValue <<< 5) &&& ((1 <<< (5 * k)) - 1)) ||| (c &&& 0b11111)

/-! ## SequenceAA (src/rnautils/kmeraa.rs, struct SequenceAA)

A byte buffer.  In the Rust source both constructors build a lazy iterator
adapter (str.iter().map(...)) whose closure would panic on an invalid
byte, but the adapter is never consumed, so no validation is executed and
construction always succeeds.  The embedding translates what the code
does: the constructors accept every buffer.
-/

/-- struct SequenceAA: the byte buffer. -/
structure SequenceAA where
  seq : List Nat
deriving DecidableEq, Repr

/-- SequenceAA::new.  The validating map in the source is an unconsumed
iterator adapter, so the function returns the sequence for every input. -/
def SequenceAA.new (str : List Nat) : SequenceAA := { seq := str }

/-- SequenceAA::from_str (impl FromStr).  Same unconsumed validating map;
the function returns Ok for every input. -/
def SequenceAA.from_str (s : List Nat) : Except String SequenceAA :=
  Except.ok { seq := s }

/-- SequenceAA::len. -/
def SequenceAA.len (s : SequenceAA) : Nat := s.seq.length

/-- SequenceAA::get_base; the panic on a position past the end is none. -/
def SequenceAA.get_base (s : SequenceAA) (pos : Nat) : Option Nat :=
  if pos ≥ s.seq.length then none else s.seq[pos]?

/-! ## KmerSeqIterator (src/rnautils/kmeraa.rs)

State of the streaming iterator; next is a state-passing function
returning the emitted k-mer (if any) and the successor state.
-/

/-- struct KmerSeqIterator, specialised to KmerAA: kmer size, the
sequence, the optional previously emitted k-mer, the production range
(start, end) and the cursor. -/
structure KmerSeqIterator where
  nb_base : Nat
  sequence : SequenceAA
  previous : Option KmerAA
  range_start : Nat
  range_end : Nat
  base_position : Nat
deriving DecidableEq, Repr

/-- KmerSeqIterator::new.  The source sets the range to
Range(start 0, end seq.len() - 1) (Nat subtraction models the usize
subtraction, which for an empty sequence would underflow) and the cursor
to 0 with no previous k-mer. -/
def KmerSeqIterator.new (kmer_size : Nat) (seq : SequenceAA) : KmerSeqIterator :=
  { nb_base := kmer_size, sequence := seq, previous := none,
    range_start := 0, range_end := seq.len - 1, base_position := 0 }

/-- KmerSeqIterator::set_range: fails when last is at most first or past
the sequence end, otherwise installs the range and moves the cursor. -/
def KmerSeqIterator.set_range (st : KmerSeqIterator) (first last : Nat) :
    Except Unit KmerSeqIterator :=
  if last ≤ first ∨ last > st.sequence.len then Except.error ()
  else Except.ok { st with range_start := first, range_end := last, base_position := first }

/-- KmerSeqIterator::next, translated from the source.  When the cursor is
past the sequence end it returns none.  When a previous k-mer exists the
base under the cursor is pushed into it and the cursor advances.  When no
k-mer has been emitted yet the source enters the initial-construction
branch, computes two locals and falls through, returning none (the branch
is unfinished in the source). -/
def KmerSeqIterator.next (st : KmerSeqIterator) : Option KmerAA × KmerSeqIterator :=
  if st.base_position ≥ st.sequence.len then (none, st)
  else
    match st.previous with
    | some kmer =>
      match st.sequence.get_base st.base_position with
      | some b =>
        let k2 := kmer.push b
        (some k2, { st with previous := some k2, base_position := st.base_position + 1 })
      | none => (none, st)      -- unreachable: the cursor is below the length
    | none => (none, st)        -- the unfinished initial-kmer branch of the source

/-- The kmer collection loop of generate_kmer_pattern: keep calling next
and pushing results until next returns none.  The loop is given fuel; one
unit more than the sequence length is enough because every emission
advances the cursor, which is bounded by the length. -/
def kmerCollectLoop : Nat → KmerSeqIterator → List KmerAA → List KmerAA
  | 0, _, acc => acc
  | fuel + 1, st, acc =>
    match st.next with
    | (some kmer, st2) => kmerCollectLoop fuel st2 (acc ++ [kmer])
    | (none, _) => acc

/-- KmerGenerationPattern::generate_kmer_pattern for KmerAA: panics (none)
when the kmer size exceeds 25, otherwise collects every kmer the fresh
iterator emits. -/
def generate_kmer_pattern (kmer_size : Nat) (seq : SequenceAA) : Option (List KmerAA) :=
  if kmer_size > 25 then none
  else some (kmerCollectLoop (seq.len + 1) (KmerSeqIterator.new kmer_size seq) [])

/-! ## Sketch driver (src/aautils/seqsketchjaccard.rs, sketch_compressedkmeraa)

Both ProbHash3aSketch and SuperHashSketch run the same driver: a parallel
map produces a list of (rank, signature) pairs in whatever order the
workers finish, and two sequential loops write each signature into slot
rank of a vector pre-filled with empty signatures.  The per-sequence
closure calls the external probminhash crate (ProbMinHash3a or
SuperMinHash with a deterministic seeded PRNG) over kmers of the
aautils kmer module; it is abstracted here as a pure function sigOf from
a sequence to its signature, and a run of the parallel collect is
modelled by the list of (rank, signature) pairs it delivers, in delivery
order.  Signature values are modelled as Nat.
-/

/-- The work items of the parallel map: pair each input index with the
signature of the corresponding sequence (the closure comput_closure
returns (i, signature of vseq[i])). -/
def probSketchWork (sigOf : SequenceAA → List Nat) (vseq : List SequenceAA) :
    List (Nat × List Nat) :=
  (List.range vseq.length).map (fun i => (i, sigOf (vseq.getD i (SequenceAA.new []))))

/-- The re-ordering tail of sketch_compressedkmeraa: jaccard_vec is
pre-filled with vseq.len() empty vectors, then each (slot, signature)
pair overwrites position slot. -/
def sketch_reorder (n : Nat) (sig_with_rank : List (Nat × List Nat)) : List (List Nat) :=
  sig_with_rank.foldl (fun acc p => acc.set p.1 p.2) (List.replicate n [])

/-- sketch_compressedkmeraa: given the per-sequence signature function and
the list of (rank, signature) pairs delivered by one run of the parallel
collect, produce the output vector.  A valid run delivers a permutation
of probSketchWork sigOf vseq. -/
def sketch_compressedkmeraa (vseq : List SequenceAA)
    (delivered : List (Nat × List Nat)) : List (List Nat) :=
  sketch_reorder vseq.length delivered

/-! ## SeqSketcher parameter persistence (src/aautils/seqsketchjaccard.rs)

dump_json serialises the record with serde_json::to_writer into the file
named by its argument; reload_json opens dir/sketchparams_dump.json and
deserialises.  The file system is modelled as an association list from
path to stored JSON document, serde_json as a JSON value tree with the
two numeric fields, and the unwrap panic on a malformed document as an
error value.
-/

/-- A JSON value, as far as the parameter record needs: a number or an
object (field list). -/
inductive Json where
  | num : Nat → Json
  | obj : List (String × Json) → Json

/-- struct SeqSketcher: kmer_size and sketch_size. -/
structure SeqSketcher where
  kmer_size : Nat
  sketch_size : Nat
deriving DecidableEq, Repr

/-- SeqSketcher::new. -/
def SeqSketcher.new (kmer_size sketch_size : Nat) : SeqSketcher :=
  { kmer_size := kmer_size, sketch_size := sketch_size }

/-- SeqSketcher::get_kmer_size. -/
def SeqSketcher.get_kmer_size (s : SeqSketcher) : Nat := s.kmer_size

/-- SeqSketcher::get_sketch_size. -/
def SeqSketcher.get_sketch_size (s : SeqSketcher) : Nat := s.sketch_size

/-- The JSON object key kmer_size. -/
def kmerSizeKey : String := "kmer_size"

/-- The JSON object key sketch_size. -/
def sketchSizeKey : String := "sketch_size"

/-- The fixed parameter file name sketchparams_dump.json. -/
def sketchParamsFileName : String := "sketchparams_dump.json"

/-- Path.join modelled as string concatenation with a slash. -/
def pathJoin (dir file : String) : String := dir ++ "/" ++ file

/-- serde serialisation of SeqSketcher: the object with its two fields. -/
def seqSketcherToJson (s : SeqSketcher) : Json :=
  Json.obj [(kmerSizeKey, Json.num s.kmer_size), (sketchSizeKey, Json.num s.sketch_size)]

/-- serde deserialisation of SeqSketcher: read both numeric fields of an
object; fail on anything else. -/
def seqSketcherFromJson (j : Json) : Option SeqSketcher :=
  match j with
  | Json.obj fields =>
    match fields.lookup kmerSizeKey, fields.lookup sketchSizeKey with
    | some (Json.num k), some (Json.num m) => some (SeqSketcher.new k m)
    | _, _ => none
  | _ => none

/-- The modelled file system: stored documents by path; a write shadows
an older entry at the same path (lookup finds the newest). -/
def FileStore : Type := List (String × Json)

/-- SeqSketcher::dump_json: write the serialised record at the path given
by the filename argument (the caller passes dir/sketchparams_dump.json to
make it reloadable from dir). -/
def SeqSketcher.dump_json (s : SeqSketcher) (filename : String) (fs : FileStore) : FileStore :=
  (filename, seqSketcherToJson s) :: fs

/-- SeqSketcher::reload_json: open dir/sketchparams_dump.json (error if
absent) and deserialise it (the source unwraps, so a malformed document
panics; the panic is an error value here). -/
def SeqSketcher.reload_json (dirpath : String) (fs : FileStore) : Except String SeqSketcher :=
  match List.lookup (pathJoin dirpath sketchParamsFileName) fs with
  | none => Except.error "Sketcher reload_json could not open file"
  | some j =>
    match seqSketcherFromJson j with
    | some s => Except.ok s
    | none => Except.error "panic: serde_json deserialization failed"

/-! ## MinHashCount (src/minhash.rs)

The classic minhash sketch keeping a bounded max-heap of the smallest
hashes and a count per retained hash.  The BinaryHeap of HashedItem
values (ordered by hash alone) is modelled as a list of
(hash, optional item) pairs; peek is the maximum hash, pop removes the
first entry carrying the maximum hash.  The HashMap of counts is an
association list from hash to count.  The item hasher (the Hasher type
parameter H) is passed as a function hashFn. -/

/-- Maximum hash of the heap content (BinaryHeap::peek, by hash). -/
def heapPeek {T : Type} (hs : List (Nat × Option T)) : Option Nat :=
  (hs.map Prod.fst).max?

/-- BinaryHeap::pop on the model: remove the first entry carrying the
maximum hash, returning that hash and the remaining entries. -/
def heapPopMax {T : Type} (hs : List (Nat × Option T)) : Option (Nat × List (Nat × Option T)) :=
  match (hs.map Prod.fst).max? with
  | none => none
  | some m => some (m, hs.eraseP (fun e => e.1 == m))

/-- HashMap::contains_key on the counts association list. -/
def countsContains (cs : List (Nat × Nat)) (h : Nat) : Bool :=
  (cs.lookup h).isSome

/-- The entry(h).or_insert += 1 update: bump the count stored for h. -/
def countsIncr (cs : List (Nat × Nat)) (h : Nat) : List (Nat × Nat) :=
  cs.map (fun p => if p.1 = h then (p.1, p.2 + 1) else p)

/-- HashMap::remove of key h. -/
def countsRemove (cs : List (Nat × Nat)) (h : Nat) : List (Nat × Nat) :=
  cs.filter (fun p => p.1 ≠ h)

/-- struct MinHashCount (the hasher is supplied to push separately). -/
structure MinHashCount (T : Type) where
  keep_item : Bool
  hashes : List (Nat × Option T)
  counts : List (Nat × Nat)
  total_count : Nat
  size : Nat

/-- MinHashCount::new. -/
def MinHashCount.new (T : Type) (size : Nat) (keep_item : Bool) : MinHashCount T :=
  { keep_item := keep_item, hashes := [], counts := [], total_count := 0, size := size }

/-- MinHashCount::push, translated from the source: hash the item, decide
insertion from the heap maximum and occupancy, then either bump the count
of an already seen hash or push a fresh entry (with the item when
keep_item is set), record count 1, and when the heap exceeds size pop the
maximum hash and drop its count. -/
def MinHashCount.push {T : Type} (hashFn : T → Nat) (st : MinHashCount T) (item : T) :
    MinHashCount T :=
  let new_hash := hashFn item
  let add_hash :=
    match heapPeek st.hashes with
    | none => true
    | some old_max_hash => decide (new_hash ≤ old_max_hash) || decide (st.hashes.length < st.size)
  if add_hash then
    if countsContains st.counts new_hash then
      { st with total_count := st.total_count + 1, counts := countsIncr st.counts new_hash }
    else
      let hashes1 := (new_hash, if st.keep_item then some item else none) :: st.hashes
      let counts1 := (new_hash, 1) :: st.counts
      if hashes1.length > st.size then
        match heapPopMax hashes1 with
        | some (popped, rest) =>
          { st with total_count := st.total_count + 1, hashes := rest,
                    counts := countsRemove counts1 popped }
        | none =>
          { st with total_count := st.total_count + 1, hashes := hashes1, counts := counts1 }
      else
        { st with total_count := st.total_count + 1, hashes := hashes1, counts := counts1 }
  else st

/-- MinHashCount::sketch_slice: push every item of the slice in order. -/
def MinHashCount.sketch_slice {T : Type} (hashFn : T → Nat) (st : MinHashCount T)
    (to_sketch : List T) : MinHashCount T :=
  to_sketch.foldl (fun s x => s.push hashFn x) st

/-- The result loop of get_sketchcount: for every heap entry look its
count up and pair the two; the unwrap of a missing count (a panic) is
modelled as none. -/
def sketchcountLoop {T : Type} (cs : List (Nat × Nat)) :
    List (Nat × Option T) → Option (List ((Nat × Option T) × Nat))
  | [] => some []
  | e :: t =>
    match cs.lookup e.1 with
    | none => none
    | some c => (sketchcountLoop cs t).map (fun r => (e, c) :: r)

/-- MinHashCount::get_sketchcount: pair every heap entry with its stored
count. -/
def MinHashCount.get_sketchcount {T : Type} (st : MinHashCount T) :
    Option (List ((Nat × Option T) × Nat)) :=
  sketchcountLoop st.counts st.hashes

/-! ## Concrete inputs used by the witness theorems -/

/-- The four-letter sequence ACDE as a byte buffer. -/
def seqACDE : SequenceAA := SequenceAA.new [65, 67, 68, 69]

/-- A concrete per-sequence signature function for the driver witnesses:
the one-element signature holding the sequence length. -/
def sigDemo : SequenceAA → List Nat := fun s => [s.len]

/-- A concrete two-sequence batch. -/
def vseqDemo : List SequenceAA := [SequenceAA.new [65], SequenceAA.new [67, 68]]

/-- A delivery order in which the second worker finishes first. -/
def schedDemoA : List (Nat × List Nat) := [(1, [2]), (0, [1])]

/-- The in-order delivery order. -/
def schedDemoB : List (Nat × List Nat) := [(0, [1]), (1, [2])]

/-- The invariant claimed for MinHashCount states: the heap never holds
more than size entries, the heap hashes are pairwise distinct, the
counts keys are pairwise distinct, and heap hashes and counts keys are
the same set. -/
def minhashInv {T : Type} (st : MinHashCount T) : Prop :=
  st.hashes.length ≤ st.size ∧
  (st.hashes.map Prod.fst).Nodup ∧
  (st.counts.map Prod.fst).Nodup ∧
  (∀ e ∈ st.hashes, e.1 ∈ st.counts.map Prod.fst) ∧
  (∀ p ∈ st.counts, p.1 ∈ st.hashes.map Prod.fst)

/-! ## Helper lemmas about the driver re-ordering fold -/

/-- The re-ordering fold preserves the length of the accumulator. -/
theorem sketch_foldl_length (runs : List (Nat × List Nat)) (acc : List (List Nat)) :
    (runs.foldl (fun a p => a.set p.1 p.2) acc).length = acc.length := by
  induction runs generalizing acc with
  | nil => rfl
  | cons p t ih => simp [ih]

/-- A slot no delivered pair targets keeps its accumulator value. -/
theorem sketch_foldl_untouched (runs : List (Nat × List Nat)) (acc : List (List Nat))
    (j : Nat) (h : ∀ p ∈ runs, p.1 ≠ j) :
    (runs.foldl (fun a p => a.set p.1 p.2) acc)[j]? = acc[j]? := by
  induction runs generalizing acc with
  | nil => rfl
  | cons p t ih =>
    rw [List.foldl_cons, ih _ (fun q hq => h q (List.mem_cons_of_mem p hq))]
    exact List.getElem?_set_ne (h p (List.mem_cons_self p t))

/-- If every delivered pair carries the signature of its own slot and slot
j is delivered, the fold leaves the signature of j at position j. -/
theorem sketch_foldl_written (f : Nat → List Nat) (runs : List (Nat × List Nat))
    (acc : List (List Nat)) (j : Nat)
    (hall : ∀ p ∈ runs, p.2 = f p.1) (hmem : (j, f j) ∈ runs) (hj : j < acc.length) :
    (runs.foldl (fun a p => a.set p.1 p.2) acc)[j]? = some (f j) := by
  induction runs generalizing acc with
  | nil => cases hmem
  | cons p t ih =>
    rw [List.foldl_cons]
    by_cases hin : (j, f j) ∈ t
    · exact ih _ (fun q hq => hall q (List.mem_cons_of_mem p hq)) hin (by simpa using hj)
    · have hp : p = (j, f j) := by
        rcases List.mem_cons.mp hmem with h1 | h1
        · exact h1.symm
        · exact absurd h1 hin
      subst hp
      have hnot : ∀ q ∈ t, q.1 ≠ j := by
        intro q hq hq1
        have hq2 : q.2 = f q.1 := hall q (List.mem_cons_of_mem _ hq)
        have hqe : q = (j, f j) := Prod.ext hq1 (by rw [hq2, hq1])
        exact hin (hqe ▸ hq)
      rw [sketch_foldl_untouched t _ j hnot]
      exact List.getElem?_set_self hj

/-- Re-ordering any permutation of the indexed work items reconstructs the
signatures in input order. -/
theorem sketch_reorder_of_perm (n : Nat) (f : Nat → List Nat) (runs : List (Nat × List Nat))
    (hperm : runs.Perm ((List.range n).map (fun i => (i, f i)))) :
    sketch_reorder n runs = (List.range n).map f := by
  have hall : ∀ p ∈ runs, p.2 = f p.1 := by
    intro p hp
    rcases List.mem_map.mp (hperm.mem_iff.mp hp) with ⟨i, _, rfl⟩
    rfl
  apply List.ext_getElem?
  intro j
  by_cases hj : j < n
  · have hmem : (j, f j) ∈ runs :=
      hperm.mem_iff.mpr (List.mem_map.mpr ⟨j, List.mem_range.mpr hj, rfl⟩)
    have hlhs : (sketch_reorder n runs)[j]? = some (f j) := by
      simp only [sketch_reorder]
      exact sketch_foldl_written f runs _ j hall hmem (by simpa using hj)
    rw [hlhs]
    simp [hj]
  · have hlen : (sketch_reorder n runs).length = n := by
      simp only [sketch_reorder]
      rw [sketch_foldl_length]
      simp
    rw [List.getElem?_eq_none (by omega), List.getElem?_eq_none (by simp; omega)]

/-! ## Claim theorems -/

/-- C1.  The claim states that an unrestricted KmerSeqIterator over a
sequence of size at least k yields s.size - k + 1 k-mers, and that
generate_kmer_pattern returns a vector of that length.  The source
contradicts it (and its own kmer-count comment): the initial-kmer branch
of next is unfinished and returns none, so the fresh iterator emits
nothing and generate_kmer_pattern returns the empty vector.  At the
failing input ACDE with k = 2 the claim demands 3 k-mers; the code
produces 0. -/
theorem claim_c1_generate_kmer_pattern_empty :
    generate_kmer_pattern 2 seqACDE = some [] ∧
    (KmerSeqIterator.new 2 seqACDE).next.1 = none ∧
    seqACDE.len - 2 + 1 = 3 := by
  refine ⟨rfl, rfl, by decide⟩

/-- C2.  The claim states that push shifts left by 5 bits and masks to the
low 5 * k bits.  The source masks with (1 shl (2 * k)) - 1 instead,
contradicting its own comment (enforce 0 at upper bits after a 5-bit
shift) and its 5-bit decoder.  At the failing input k = 2, value 1,
pushed code 2, the code produces value 2 where the claimed formula
produces 34. -/
theorem claim_c2_push_mask_wrong :
    KmerAA.push { aa := 1, nb_base := 2 } 2 = { aa := 2, nb_base := 2 } ∧
    pushSpecValue 2 1 2 = 34 ∧ (2 : Nat) ≠ 34 := by
  refine ⟨by decide, by decide, by decide⟩

/-- C3.  The claim states that SequenceAA construction validates every
byte and never returns a sequence holding an invalid byte.  In the source
the validating closure sits in an iterator adapter that is never
consumed, so no validation runs: from_str returns Ok for every buffer.
At the failing input, the single byte Z (90), which is not a valid base,
construction succeeds. -/
theorem claim_c3_validation_never_runs :
    SequenceAA.from_str [90] = Except.ok (SequenceAA.new [90]) ∧
    SequenceAA.new [90] = { seq := [90] } ∧
    Alphabet.is_valid_base 90 = false := by
  refine ⟨rfl, rfl, by decide⟩

/-- C6.  The claim states that KmerAA::new succeeds for every k up to and
including 25 and panics exactly for k above 25.  The source tests
nb_base greater or equal 25, contradicting its own panic message (must
be less or equal to 25), its doc comment (up to 25 AA) and
get_nb_base_max (25): at the failing input k = 25 the code panics. -/
theorem claim_c6_new_rejects_25 :
    KmerAA.new 25 = none ∧
    KmerAA.new 24 = some { aa := 0, nb_base := 24 } ∧
    KmerAA.get_nb_base_max = 25 := by
  refine ⟨by decide, by decide, by decide⟩

/-- C7.  The claim states that KmerSeqIterator::new sets the production
range to the whole sequence, range end equal to the sequence length.
The source sets range end to seq.len() - 1, although its own set_range
treats an end equal to the length as valid and the generation functions
rely on the default range covering all of the sequence.  At the failing
input ACDE (length 4) the recorded range end is 3.  Cursor 0 and absent
previous k-mer are as claimed. -/
theorem claim_c7_new_range_end_off_by_one :
    (KmerSeqIterator.new 2 seqACDE).base_position = 0 ∧
    (KmerSeqIterator.new 2 seqACDE).previous = none ∧
    (KmerSeqIterator.new 2 seqACDE).range_start = 0 ∧
    (KmerSeqIterator.new 2 seqACDE).range_end = 3 ∧
    seqACDE.len = 4 := by
  refine ⟨rfl, rfl, rfl, by decide, by decide⟩

/-- C8 counterexample.  The claim bounds every code by 20; the encode
table maps the valid base Y (byte 89) to 0b10101 = 21. -/
theorem claim_c8_counterexample :
    Alphabet.is_valid_base 89 = true ∧ Alphabet.encode 89 = some 21 ∧ ¬(21 ≤ 20) := by
  refine ⟨by decide, by decide, by decide⟩

/-- C8 as amended.  For every byte, encode succeeds exactly on the
20-letter alphabet, and every returned code lies in 1..=21 (the encode
table skips 14, so the top code is 21, not 20); encode panics (none) on
every byte outside the alphabet. -/
theorem claim_c8_encode_range_amended :
    ∀ c : Fin 256,
      (Alphabet.encode c.val).isSome = Alphabet.is_valid_base c.val ∧
      (Alphabet.encode c.val).all (fun v => decide (1 ≤ v ∧ v ≤ 21)) = true := by
  set_option maxRecDepth 4096 in decide

/-- C4.  For every per-sequence signature function, every batch and every
delivery order of the parallel collect (any permutation of the indexed
work items), sketch_compressedkmeraa returns the signatures in input
order: the output is exactly the list of signatures of the input
sequences, index by index. -/
theorem claim_c4_sketch_output_in_input_order (sigOf : SequenceAA → List Nat)
    (vseq : List SequenceAA) (delivered : List (Nat × List Nat))
    (hrun : delivered.Perm (probSketchWork sigOf vseq)) :
    sketch_compressedkmeraa vseq delivered =
      (List.range vseq.length).map (fun i => sigOf (vseq.getD i (SequenceAA.new []))) :=
  sketch_reorder_of_perm vseq.length _ delivered hrun

/-- C4 witness: a two-sequence batch delivered out of order still comes
back in input order. -/
theorem claim_c4_witness :
    schedDemoA.Perm (probSketchWork sigDemo vseqDemo) ∧
    sketch_compressedkmeraa vseqDemo schedDemoA =
      (List.range vseqDemo.length).map (fun i => sigDemo (vseqDemo.getD i (SequenceAA.new []))) :=
  ⟨by decide, claim_c4_sketch_output_in_input_order sigDemo vseqDemo schedDemoA (by decide)⟩

/-- C5.  Two runs of the sketching function on the same batch, differing
only in the order in which the parallel workers deliver their (rank,
signature) pairs, produce identical signature vectors: the output is a
deterministic function of the inputs. -/
theorem claim_c5_sketch_deterministic (sigOf : SequenceAA → List Nat)
    (vseq : List SequenceAA) (r1 r2 : List (Nat × List Nat))
    (h1 : r1.Perm (probSketchWork sigOf vseq))
    (h2 : r2.Perm (probSketchWork sigOf vseq)) :
    sketch_compressedkmeraa vseq r1 = sketch_compressedkmeraa vseq r2 :=
  (sketch_reorder_of_perm vseq.length _ r1 h1).trans
    (sketch_reorder_of_perm vseq.length _ r2 h2).symm

/-- C5 witness: two concrete delivery orders of the same batch. -/
theorem claim_c5_witness :
    schedDemoA.Perm (probSketchWork sigDemo vseqDemo) ∧
    schedDemoB.Perm (probSketchWork sigDemo vseqDemo) ∧
    sketch_compressedkmeraa vseqDemo schedDemoA = sketch_compressedkmeraa vseqDemo schedDemoB :=
  ⟨by decide, by decide,
    claim_c5_sketch_deterministic sigDemo vseqDemo schedDemoA schedDemoB (by decide) (by decide)⟩

/-- C9.  Dumping a parameter record as JSON to sketchparams_dump.json
inside a directory and reloading from that directory returns a record
with the same kmer_size and sketch_size, whatever was stored before. -/
theorem claim_c9_dump_reload_roundtrip (s : SeqSketcher) (dir : String) (fs : FileStore) :
    SeqSketcher.reload_json dir (s.dump_json (pathJoin dir sketchParamsFileName) fs) =
      Except.ok s := by
  cases s with
  | mk k m =>
    simp [SeqSketcher.reload_json, SeqSketcher.dump_json, List.lookup,
      seqSketcherFromJson, seqSketcherToJson, SeqSketcher.new, kmerSizeKey, sketchSizeKey]

/-! ## Helper lemmas about the minhash state -/

/-- countsContains is membership among the counts keys. -/
theorem countsContains_iff (cs : List (Nat × Nat)) (h : Nat) :
    countsContains cs h = true ↔ h ∈ cs.map Prod.fst := by
  induction cs with
  | nil => simp [countsContains, List.lookup]
  | cons p t ih =>
    cases p with
    | mk a b =>
      by_cases hh : h = a
      · subst hh
        simp [countsContains, List.lookup]
      · have hba : (h == a) = false := beq_eq_false_iff_ne.mpr hh
        simp only [countsContains, List.lookup, hba, List.map_cons, List.mem_cons]
        constructor
        · intro hl
          exact Or.inr (ih.mp hl)
        · intro hor
          rcases hor with h1 | h1
          · exact absurd h1 hh
          · exact ih.mpr h1

/-- Bumping a count keeps the key list unchanged. -/
theorem countsIncr_map_fst (cs : List (Nat × Nat)) (h : Nat) :
    (countsIncr cs h).map Prod.fst = cs.map Prod.fst := by
  simp only [countsIncr, List.map_map]
  apply List.map_congr_left
  intro p _
  by_cases hp : p.1 = h <;> simp [hp]

/-- Membership after removing a counts key. -/
theorem mem_countsRemove (cs : List (Nat × Nat)) (h : Nat) (p : Nat × Nat) :
    p ∈ countsRemove cs h ↔ p ∈ cs ∧ p.1 ≠ h := by
  simp [countsRemove, List.mem_filter]

/-- An entry surviving the heap pop was in the heap and does not carry the
popped hash (heap hashes being pairwise distinct). -/
theorem mem_eraseP_key {T : Type} (l : List (Nat × Option T)) (m : Nat)
    (hnd : (l.map Prod.fst).Nodup) {e : Nat × Option T}
    (he : e ∈ l.eraseP (fun x => x.1 == m)) : e ∈ l ∧ e.1 ≠ m := by
  induction l with
  | nil => simp [List.eraseP] at he
  | cons x t ih =>
    rw [List.map_cons, List.nodup_cons] at hnd
    by_cases hx : x.1 = m
    · rw [List.eraseP_cons_of_pos (by simp [hx])] at he
      refine ⟨List.mem_cons_of_mem x he, fun hem => hnd.1 ?_⟩
      have hmm : e.1 ∈ List.map Prod.fst t := List.mem_map.mpr ⟨e, he, rfl⟩
      rw [hem] at hmm
      rw [hx]
      exact hmm
    · rw [List.eraseP_cons_of_neg (by simp [hx])] at he
      rcases List.mem_cons.mp he with rfl | h2
      · exact ⟨List.mem_cons_self e t, hx⟩
      · obtain ⟨h3, h4⟩ := ih hnd.2 h2
        exact ⟨List.mem_cons_of_mem x h3, h4⟩

/-- An entry not carrying the popped hash survives the heap pop. -/
theorem mem_eraseP_key_of_ne {T : Type} (l : List (Nat × Option T)) (m : Nat)
    {e : Nat × Option T} (he : e ∈ l) (hne : e.1 ≠ m) :
    e ∈ l.eraseP (fun x => x.1 == m) := by
  induction l with
  | nil => cases he
  | cons x t ih =>
    by_cases hx : x.1 = m
    · rw [List.eraseP_cons_of_pos (by simp [hx])]
      rcases List.mem_cons.mp he with rfl | h2
      · exact absurd hx hne
      · exact h2
    · rw [List.eraseP_cons_of_neg (by simp [hx])]
      rcases List.mem_cons.mp he with rfl | h2
      · exact List.mem_cons_self _ _
      · exact List.mem_cons_of_mem x (ih h2)

/-- The freshly allocated minhash state satisfies the invariant. -/
theorem minhash_new_inv (T : Type) (size : Nat) (keep_item : Bool) :
    minhashInv (MinHashCount.new T size keep_item) := by
  refine ⟨by simp [MinHashCount.new], by simp [MinHashCount.new], by simp [MinHashCount.new],
    ?_, ?_⟩ <;> simp [MinHashCount.new]

/-- push preserves the size field. -/
theorem minhash_push_size {T : Type} (hashFn : T → Nat) (st : MinHashCount T) (item : T) :
    (st.push hashFn item).size = st.size := by
  simp only [MinHashCount.push]
  repeat' split
  all_goals rfl

/-- A bumped counts entry keeps its key. -/
theorem mem_countsIncr (cs : List (Nat × Nat)) (h : Nat) (p : Nat × Nat)
    (hp : p ∈ countsIncr cs h) : ∃ q ∈ cs, p.1 = q.1 := by
  simp only [countsIncr, List.mem_map] at hp
  obtain ⟨q, hq, hpq⟩ := hp
  refine ⟨q, hq, ?_⟩
  rw [← hpq]
  by_cases hqh : q.1 = h <;> simp [hqh]

/-- heapPopMax on a non-empty heap pops a present maximum hash and erases
its first carrier. -/
theorem heapPopMax_cons_spec {T : Type} (e0 : Nat × Option T) (l : List (Nat × Option T)) :
    ∃ m, heapPopMax (e0 :: l) = some (m, (e0 :: l).eraseP (fun x => x.1 == m)) ∧
      m ∈ (e0 :: l).map Prod.fst := by
  simp only [heapPopMax, List.map_cons, List.max?]
  exact ⟨_, rfl, List.max?_mem max_choice (by simp [List.max?])⟩

/-- push preserves the minhash invariant. -/
theorem minhash_push_inv {T : Type} (hashFn : T → Nat) (st : MinHashCount T) (item : T)
    (hinv : minhashInv st) : minhashInv (st.push hashFn item) := by
  obtain ⟨hlen, hndh, hndc, hhc, hch⟩ := hinv
  simp only [MinHashCount.push]
  split
  case isFalse => exact ⟨hlen, hndh, hndc, hhc, hch⟩
  case isTrue hadd =>
    split
    case isTrue hcont =>
      refine ⟨hlen, hndh, ?_, ?_, ?_⟩
      · rw [countsIncr_map_fst]
        exact hndc
      · intro e he
        rw [countsIncr_map_fst]
        exact hhc e he
      · intro p hp
        obtain ⟨q, hq, hpq⟩ := mem_countsIncr _ _ _ hp
        rw [hpq]
        exact hch q hq
    case isFalse hcont =>
      have hnotc : (hashFn item) ∉ st.counts.map Prod.fst := by
        intro hmem
        exact hcont ((countsContains_iff _ _).mpr hmem)
      have hnoth : (hashFn item) ∉ st.hashes.map Prod.fst := by
        intro hmem
        obtain ⟨e, he, hpe⟩ := List.mem_map.mp hmem
        exact hnotc (hpe ▸ hhc e he)
      generalize (if st.keep_item = true then some item else none) = opt
      have hnd1 : (((hashFn item, opt) :: st.hashes).map Prod.fst).Nodup := by
        simp only [List.map_cons, List.nodup_cons]
        exact ⟨hnoth, hndh⟩
      have hndc1 : (((hashFn item, 1) :: st.counts).map Prod.fst).Nodup := by
        simp only [List.map_cons, List.nodup_cons]
        exact ⟨hnotc, hndc⟩
      split
      case isTrue hgt =>
        split
        case h_2 heq =>
          obtain ⟨m, hm, _⟩ := heapPopMax_cons_spec (hashFn item, opt) st.hashes
          rw [hm] at heq
          cases heq
        case h_1 popped rest heq =>
          obtain ⟨m, hm, hmmem⟩ := heapPopMax_cons_spec (hashFn item, opt) st.hashes
          rw [hm] at heq
          simp only [Option.some.injEq, Prod.mk.injEq] at heq
          obtain ⟨hpop, hrest⟩ := heq
          subst hpop
          subst hrest
          have hmem1 : ∃ a ∈ ((hashFn item, opt) :: st.hashes),
              (fun x : Nat × Option T => x.1 == m) a = true := by
            obtain ⟨a, ha, hae⟩ := List.mem_map.mp hmmem
            exact ⟨a, ha, by simp [hae]⟩
          obtain ⟨a, ha, hpa⟩ := hmem1
          refine ⟨?_, ?_, ?_, ?_, ?_⟩
          · rw [List.length_eraseP_of_mem ha hpa]
            simp only [List.length_cons]
            omega
          · exact hnd1.sublist ((List.eraseP_sublist _).map Prod.fst)
          · exact hndc1.sublist ((List.filter_sublist _).map Prod.fst)
          · intro e he
            obtain ⟨hin, hne⟩ := mem_eraseP_key _ _ hnd1 he
            have hkey : e.1 ∈ (((hashFn item, 1) :: st.counts).map Prod.fst) := by
              rcases List.mem_cons.mp hin with rfl | h2
              · simp
              · simp only [List.map_cons, List.mem_cons]
                exact Or.inr (hhc e h2)
            obtain ⟨q, hq, hqe⟩ := List.mem_map.mp hkey
            refine List.mem_map.mpr ⟨q, (mem_countsRemove _ _ _).mpr ⟨hq, ?_⟩, hqe⟩
            rw [show q.1 = e.1 from hqe]
            exact hne
          · intro p hp
            obtain ⟨hp1, hp2⟩ := (mem_countsRemove _ _ _).mp hp
            have hkey : p.1 ∈ (((hashFn item, opt) :: st.hashes).map Prod.fst) := by
              rcases List.mem_cons.mp hp1 with rfl | h2
              · simp
              · simp only [List.map_cons, List.mem_cons]
                exact Or.inr (hch p h2)
            obtain ⟨e, he, hep⟩ := List.mem_map.mp hkey
            refine List.mem_map.mpr ⟨e, mem_eraseP_key_of_ne _ _ he ?_, hep⟩
            rw [show e.1 = p.1 from hep]
            exact hp2
      case isFalse hle =>
        refine ⟨?_, hnd1, hndc1, ?_, ?_⟩
        · simp only [List.length_cons] at hle ⊢
          omega
        · intro e he
          rcases List.mem_cons.mp he with rfl | h2
          · simp
          · simp only [List.map_cons, List.mem_cons]
            exact Or.inr (hhc e h2)
        · intro p hp
          rcases List.mem_cons.mp hp with rfl | h2
          · simp
          · simp only [List.map_cons, List.mem_cons]
            exact Or.inr (hch p h2)

/-- sketch_slice preserves the size field. -/
theorem minhash_slice_size {T : Type} (hashFn : T → Nat) (items : List T)
    (st : MinHashCount T) :
    (st.sketch_slice hashFn items).size = st.size := by
  induction items generalizing st with
  | nil => rfl
  | cons x t ih =>
    simp only [MinHashCount.sketch_slice, List.foldl_cons] at ih ⊢
    rw [ih, minhash_push_size]

/-- sketch_slice preserves the minhash invariant. -/
theorem minhash_slice_inv {T : Type} (hashFn : T → Nat) (items : List T)
    (st : MinHashCount T) (hinv : minhashInv st) :
    minhashInv (st.sketch_slice hashFn items) := by
  induction items generalizing st with
  | nil => exact hinv
  | cons x t ih =>
    simp only [MinHashCount.sketch_slice, List.foldl_cons] at ih ⊢
    exact ih _ (minhash_push_inv hashFn st x hinv)

/-- When every heap hash has a counts entry, the sketchcount loop
succeeds and returns one result per heap entry. -/
theorem sketchcountLoop_some {T : Type} (cs : List (Nat × Nat))
    (hs : List (Nat × Option T)) (h : ∀ e ∈ hs, e.1 ∈ cs.map Prod.fst) :
    ∃ r, sketchcountLoop cs hs = some r ∧ r.length = hs.length := by
  induction hs with
  | nil => exact ⟨[], rfl, rfl⟩
  | cons e t ih =>
    have hec : countsContains cs e.1 = true :=
      (countsContains_iff _ _).mpr (h e (List.mem_cons_self _ _))
    obtain ⟨c, hc⟩ : ∃ c, cs.lookup e.1 = some c := by
      unfold countsContains at hec
      cases hl : cs.lookup e.1 with
      | none => rw [hl] at hec; cases hec
      | some c => exact ⟨c, rfl⟩
    obtain ⟨r, hr, hlen⟩ := ih (fun x hx => h x (List.mem_cons_of_mem _ hx))
    refine ⟨(e, c) :: r, ?_, by simp [hlen]⟩
    simp [sketchcountLoop, hc, hr]

/-- C10.  For every hasher, capacity, keep flag and sequence of pushed
items, the state reached from MinHashCount::new retains at most size
hashed entries, every hash in the heap has a matching entry in the
counts map, and consequently get_sketchcount succeeds and returns at
most size items. -/
theorem claim_c10_minhash_retained_bound {T : Type} (hashFn : T → Nat) (size : Nat)
    (keep_item : Bool) (items : List T) :
    ((MinHashCount.new T size keep_item).sketch_slice hashFn items).hashes.length ≤ size ∧
    (∀ e ∈ ((MinHashCount.new T size keep_item).sketch_slice hashFn items).hashes,
        countsContains ((MinHashCount.new T size keep_item).sketch_slice hashFn items).counts
          e.1 = true) ∧
    (∃ r, ((MinHashCount.new T size keep_item).sketch_slice hashFn items).get_sketchcount =
        some r ∧ r.length ≤ size) := by
  obtain ⟨h1, _, _, h4, _⟩ :=
    minhash_slice_inv hashFn items _ (minhash_new_inv T size keep_item)
  have hsize : ((MinHashCount.new T size keep_item).sketch_slice hashFn items).size = size :=
    minhash_slice_size hashFn items _
  rw [hsize] at h1
  refine ⟨h1, fun e he => (countsContains_iff _ _).mpr (h4 e he), ?_⟩
  obtain ⟨r, hr, hlen⟩ := sketchcountLoop_some _ _ h4
  exact ⟨r, hr, by rw [hlen]; exact h1⟩

/-- C10 witness: a concrete run with capacity 2 and four pushed items. -/
theorem claim_c10_witness :
    ((MinHashCount.new Nat 2 false).sketch_slice (fun x => x) [5, 3, 7, 1]).hashes.length ≤ 2 ∧
    (∀ e ∈ ((MinHashCount.new Nat 2 false).sketch_slice (fun x => x) [5, 3, 7, 1]).hashes,
        countsContains
          ((MinHashCount.new Nat 2 false).sketch_slice (fun x => x) [5, 3, 7, 1]).counts
          e.1 = true) ∧
    (∃ r, ((MinHashCount.new Nat 2 false).sketch_slice (fun x => x) [5, 3, 7, 1]).get_sketchcount =
        some r ∧ r.length ≤ 2) :=
  claim_c10_minhash_retained_bound (fun x => x) 2 false [5, 3, 7, 1]
